import Mathlib

/-!
Verification model of the `yebeai.github.io` feed-generation scripts
(`scripts/update-forks.js`, incremental blog-generator variant, plus the
simple summary-generator variants).

Strings are modelled as Lean `String`s; JavaScript `toLowerCase` is modelled
by `Char.toLower` (the scripts' phrase scans are ASCII).  Timestamps are
modelled as abstract `Nat` instants: `formatDate` is kept as the identity on
the instant, since no property here depends on locale formatting.
-/

set_option maxRecDepth 100000

namespace Forks

/-- One character of the apostrophe (several denylist phrases contain it). -/
def apos : String := String.singleton (Char.ofNat 39)

def emptyString : String := ""

/-- JS `s.includes(pat)` on character lists: `pat` occurs as a contiguous
substring of `s` (the empty pattern is always contained). -/
def listIncludes (pat : List Char) : List Char → Bool
  | [] => pat.isEmpty
  | c :: rest => pat.isPrefixOf (c :: rest) || listIncludes pat rest

/-- JS `s.includes(pat)`. -/
def jsIncludes (s pat : String) : Bool :=
  listIncludes pat.data s.data

/-- JS `s.toLowerCase()` (ASCII case mapping). -/
def jsLower (s : String) : String :=
  String.mk (s.data.map Char.toLower)

/-- JS `a || b` for an optional string `a` (both `undefined`/`null` and the
empty string are falsy). -/
def jsOrStr (a : Option String) (b : String) : String :=
  match a with
  | some s => if s.length = 0 then b else s
  | none => b

/-- JS `a || b` for two options (`null`/`undefined` falsy). -/
def jsOrOpt {α : Type} (a b : Option α) : Option α :=
  match a with
  | some x => some x
  | none => b

def phraseDemonstrates : String := "demonstrates thoughtful software design"

def phraseCaught : String := "caught my attention for its practical approach"

/-- `update-forks.js` (incremental variant), `badPhrases` in
`isFallbackArticle`: fallback phrases plus AI-sounding phrases. -/
def badPhrases : List String :=
  [ phraseDemonstrates,
    phraseCaught,
    "Worth investigating if you" ++ apos ++ "re working with",
    "patterns and implementations that could accelerate",
    "In the rapidly evolving",
    "In the world of",
    "In today" ++ apos ++ "s landscape",
    "is paramount",
    "aims to streamline",
    "comprehensive solution",
    "It" ++ apos ++ "s worth noting",
    "leveraging the power",
    "game-changer",
    "cutting-edge" ]

/-- `isFallbackArticle(article)`: the article needs regeneration when it is
missing/short (< 400 characters) or contains a denylist phrase
(case-insensitive substring match).  The JS `!article` test is subsumed by
the length test for present strings. -/
def isFallbackArticle (article : String) : Bool :=
  if article.length < 400 then true
  else badPhrases.any fun phrase => jsIncludes (jsLower article) (jsLower phrase)

/-- The display name: `repo.name` with every dash and underscore replaced
by a space (the two global `replace` calls). -/
def displayName (name : String) : String :=
  String.mk (name.data.map fun c => if c = '-' then ' ' else if c = '_' then ' ' else c)

structure Parent where
  name : String
  url : String
  stars : Nat
deriving DecidableEq

/-- A repository as fetched from the hosting API (fields used by the
scripts).  `rtype` models the `_type` tag mutated onto the object
(`''` standing for JS `undefined`). -/
structure Repo where
  id : Nat
  name : String
  description : Option String
  language : Option String
  stargazers : Nat
  forksCount : Nat
  topics : Option (List String)
  parent : Option Parent
  htmlUrl : String
  createdAt : Nat
  updatedAt : Nat
  fork : Bool
  archived : Bool
  rtype : String
deriving DecidableEq

def variousTechText : String := "various technologies"

/-- Fixed text segments of the incremental `generateFallbackSummary`. -/
def fbLongMid : String := "\n\nThis "

def fbLongTail : String :=
  " project caught my attention for its practical approach to solving real developer problems. The codebase offers patterns worth studying for anyone working in this space."

def fbShortMid1 : String := " is a "

def fbShortMid2 : String :=
  " project that demonstrates thoughtful software design. While exploring the codebase, I found patterns and implementations that could accelerate similar projects. Worth investigating if you" ++ apos ++ "re working with "

def fbShortTail : String := " or interested in clean, maintainable code architecture."

/-- `generateFallbackSummary(repo)` of the incremental generator: long
descriptions are kept and suffixed; otherwise a fixed template is filled
with display name and language. -/
def generateFallbackSummary (repo : Repo) : String :=
  let desc := repo.description.getD emptyString
  let lang := jsOrStr repo.language variousTechText
  let name := displayName repo.name
  if 100 < desc.length then
    desc ++ fbLongMid ++ lang ++ fbLongTail
  else
    name ++ fbShortMid1 ++ lang ++ fbShortMid2 ++ lang ++ fbShortTail

/-! ### Basic lemmas about the substring scan -/

theorem strData_append (a b : String) : (a ++ b).data = a.data ++ b.data := by
  cases a
  cases b
  rfl

theorem jsLowerData_append (a b : String) :
    (jsLower (a ++ b)).data = (jsLower a).data ++ (jsLower b).data := by
  show ((a ++ b).data.map Char.toLower) = _
  rw [strData_append, List.map_append]
  rfl

theorem listIncludes_nil (s : List Char) : listIncludes [] s = true := by
  cases s with
  | nil => rfl
  | cons c rest => simp [listIncludes, List.isPrefixOf]

theorem isPrefixOf_append {pat s : List Char} (t : List Char)
    (h : pat.isPrefixOf s = true) : pat.isPrefixOf (s ++ t) = true := by
  induction pat generalizing s with
  | nil => simp [List.isPrefixOf]
  | cons a as ih =>
    cases s with
    | nil => simp [List.isPrefixOf] at h
    | cons b bs =>
      simp only [List.isPrefixOf, Bool.and_eq_true] at h ⊢
      exact ⟨h.1, ih h.2⟩

theorem listIncludes_append_right {pat s : List Char} (t : List Char)
    (h : listIncludes pat s = true) : listIncludes pat (t ++ s) = true := by
  induction t with
  | nil => simpa using h
  | cons c t' ih =>
    show (pat.isPrefixOf (c :: (t' ++ s)) || listIncludes pat (t' ++ s)) = true
    rw [ih]
    simp

theorem listIncludes_append_left {pat s : List Char} (t : List Char)
    (h : listIncludes pat s = true) : listIncludes pat (s ++ t) = true := by
  induction s with
  | nil =>
    have : pat = [] := by
      simpa [listIncludes, List.isEmpty_iff] using h
    subst this
    exact listIncludes_nil t
  | cons c s' ih =>
    simp only [listIncludes, Bool.or_eq_true] at h
    rcases h with h | h
    · show (pat.isPrefixOf (c :: (s' ++ t)) || _) = true
      have hp := isPrefixOf_append (s := c :: s') t h
      rw [List.cons_append] at hp
      rw [hp]
      simp
    · show (_ || listIncludes pat (s' ++ t)) = true
      rw [ih h]
      simp

/-- The fixed long-description suffix contains the denylist phrase
`caught my attention for its practical approach`. -/
theorem caught_in_longTail :
    listIncludes (jsLower phraseCaught).data (jsLower fbLongTail).data = true := by
  decide

/-- The fixed short template contains the denylist phrase
`demonstrates thoughtful software design`. -/
theorem demonstrates_in_shortMid2 :
    listIncludes (jsLower phraseDemonstrates).data (jsLower fbShortMid2).data = true := by
  decide

/-- Shared helper: every article synthesized by the incremental fallback
generator contains a denylist phrase, hence fails the quality check. -/
theorem isFallback_fallback (repo : Repo) :
    isFallbackArticle (generateFallbackSummary repo) = true := by
  have hX : (badPhrases.any fun phrase =>
      jsIncludes (jsLower (generateFallbackSummary repo)) (jsLower phrase)) = true := by
    unfold generateFallbackSummary
    by_cases hd : 100 < (repo.description.getD emptyString).length
    · simp only [hd, if_true]
      refine List.any_eq_true.mpr ⟨phraseCaught, by simp [badPhrases], ?_⟩
      show listIncludes _ _ = true
      rw [jsLowerData_append]
      exact listIncludes_append_right _ caught_in_longTail
    · simp only [hd, if_false]
      refine List.any_eq_true.mpr ⟨phraseDemonstrates, by simp [badPhrases], ?_⟩
      show listIncludes _ _ = true
      rw [jsLowerData_append, jsLowerData_append, jsLowerData_append,
        jsLowerData_append, jsLowerData_append]
      rw [List.append_assoc, List.append_assoc, List.append_assoc,
        List.append_assoc]
      refine listIncludes_append_right _ ?_
      refine listIncludes_append_right _ ?_
      refine listIncludes_append_right _ ?_
      exact listIncludes_append_left _ demonstrates_in_shortMid2
  unfold isFallbackArticle
  by_cases h : (generateFallbackSummary repo).length < 400
  · simp [h]
  · simp [h, hX]

/-! ### Model rotation and the article generator (incremental variant) -/

/-- `CONFIG.models.available`. -/
def availableModels : List String := ["gpt-4o", "gpt-4o-mini", "gpt-4.1"]

/-- The module-level mutable state: `modelRateLimits` (set of model names
marked unusable) and `currentModelIndex`. -/
structure ModelState where
  rateLimited : List String
  currentModelIndex : Nat
deriving DecidableEq

def initModelState : ModelState := { rateLimited := [], currentModelIndex := 0 }

/-- `modelRateLimits[model] = true`. -/
def markRateLimited (m : String) (s : ModelState) : ModelState :=
  { s with rateLimited := m :: s.rateLimited }

/-- The loop body of `getNextModel`: `k` counts the remaining iterations
(starting at the number of available models), `i` the loop variable. -/
def getNextModelGo (s : ModelState) : Nat → Nat → Option (String × ModelState)
  | 0, _ => none
  | k + 1, i =>
    let m := availableModels.getD ((s.currentModelIndex + i) % availableModels.length) emptyString
    if s.rateLimited.contains m then
      getNextModelGo s k (i + 1)
    else
      some (m, { s with currentModelIndex := (s.currentModelIndex + i + 1) % availableModels.length })

/-- `getNextModel()`: first model (in rotation order) not yet marked
rate-limited, advancing `currentModelIndex`; `none` when every model is
marked. -/
def getNextModel (s : ModelState) : Option (String × ModelState) :=
  getNextModelGo s availableModels.length 0

/-- Number of models not yet marked rate-limited. -/
def countUnmarked (s : ModelState) : Nat :=
  (availableModels.filter fun m => !(s.rateLimited.contains m)).length

theorem mem_availableModels_getD (n : Nat) :
    availableModels.getD (n % availableModels.length) emptyString ∈ availableModels := by
  have h : n % availableModels.length < availableModels.length :=
    Nat.mod_lt _ (by decide)
  have h3 : n % availableModels.length = 0 ∨ n % availableModels.length = 1 ∨
      n % availableModels.length = 2 := by
    have : availableModels.length = 3 := by decide
    omega
  rcases h3 with h0 | h0 | h0 <;> rw [h0] <;> decide

theorem getNextModelGo_spec {s : ModelState} :
    ∀ {k i m s'}, getNextModelGo s k i = some (m, s') →
      m ∈ availableModels ∧ s.rateLimited.contains m = false ∧
        s'.rateLimited = s.rateLimited := by
  intro k
  induction k with
  | zero => intro i m s' h; exact absurd h (by simp [getNextModelGo])
  | succ k ih =>
    intro i m s' h
    unfold getNextModelGo at h
    by_cases hc : s.rateLimited.contains
        (availableModels.getD ((s.currentModelIndex + i) % availableModels.length) emptyString) = true
    · rw [if_pos hc] at h
      exact ih h
    · rw [if_neg hc] at h
      obtain ⟨hm, hs⟩ := Prod.mk.injEq .. ▸ (Option.some.injEq .. ▸ h)
      subst hm
      refine ⟨mem_availableModels_getD _, by simpa using hc, ?_⟩
      rw [← hs]

theorem getNextModel_spec {s : ModelState} {m : String} {s' : ModelState}
    (h : getNextModel s = some (m, s')) :
    m ∈ availableModels ∧ s.rateLimited.contains m = false ∧
      s'.rateLimited = s.rateLimited :=
  getNextModelGo_spec h

theorem length_filter_ne_lt {m : String} {l : List String} (h : m ∈ l) :
    (l.filter fun x => !(x == m)).length < l.length := by
  induction l with
  | nil => cases h
  | cons a t ih =>
    by_cases ha : a = m
    · subst ha
      rw [List.filter_cons_of_neg (by simp)]
      exact Nat.lt_succ_of_le (List.length_filter_le _ _)
    · rw [List.filter_cons_of_pos (by simp [ha])]
      have hmt : m ∈ t := by
        rcases List.mem_cons.mp h with h' | h'
        · exact absurd h'.symm ha
        · exact h'
      simpa using Nat.succ_lt_succ (ih hmt)

theorem countUnmarked_rateLimited {s₁ s₂ : ModelState}
    (h : s₁.rateLimited = s₂.rateLimited) : countUnmarked s₁ = countUnmarked s₂ := by
  unfold countUnmarked
  rw [h]

theorem countUnmarked_mark_lt {s : ModelState} {m : String}
    (hmem : m ∈ availableModels) (hun : s.rateLimited.contains m = false) :
    countUnmarked (markRateLimited m s) < countUnmarked s := by
  unfold countUnmarked markRateLimited
  have hfun : ∀ x ∈ availableModels,
      (!((m :: s.rateLimited).contains x)) =
        ((!(x == m)) && !(s.rateLimited.contains x)) := by
    intro x _
    by_cases hx : x = m
    · subst hx; simp
    · simp [hx]
  rw [List.filter_congr hfun, ← List.filter_filter]
  exact length_filter_ne_lt (List.mem_filter.mpr ⟨hmem, by simpa using hun⟩)

theorem one_le_countUnmarked {s : ModelState} {m : String}
    (hmem : m ∈ availableModels) (hun : s.rateLimited.contains m = false) :
    1 ≤ countUnmarked s := by
  have : m ∈ availableModels.filter fun x => !(s.rateLimited.contains x) :=
    List.mem_filter.mpr ⟨hmem, by simpa using hun⟩
  have := List.length_pos.mpr (List.ne_nil_of_mem this)
  exact this

theorem countUnmarked_le (s : ModelState) :
    countUnmarked s ≤ availableModels.length :=
  List.length_filter_le _ _

/-- Result of one top-level `generateBlogArticle` call: the produced
article (if any), the final module state, and the trace of completion-
endpoint calls (one entry per HTTP request, naming the model used). -/
structure GenResult where
  article : Option String
  state : ModelState
  calls : List String
deriving DecidableEq

/-- Outcome of one completion-endpoint HTTP request, as seen by
`generateBlogArticle`: a successful response with optional content, a
non-success HTTP status, or a network error (the `catch` path). -/
inductive ApiResult where
  | success (content : Option String)
  | httpErr (status : Nat)
  | netErr
deriving DecidableEq

/-- The body of `generateBlogArticle` (token present), fueled so that the
recursion on rate-limited models is structural; `none` means fuel ran out,
which `genArticleFuel_isSome` shows never happens with fuel above the
number of unmarked models. On success the article is kept only when longer
than 400 characters; a 429 status marks the model and retries with the
next one; other failures return no article. -/
def genArticleFuel (resp : String → ApiResult) : Nat → ModelState → Option GenResult
  | 0, _ => none
  | fuel + 1, s =>
    match getNextModel s with
    | none => some { article := none, state := s, calls := [] }
    | some (m, s') =>
      match resp m with
      | ApiResult.success content =>
        match content with
        | some a =>
          if 400 < a.length then some { article := some a, state := s', calls := [m] }
          else some { article := none, state := s', calls := [m] }
        | none => some { article := none, state := s', calls := [m] }
      | ApiResult.httpErr status =>
        if status = 429 then
          match genArticleFuel resp fuel (markRateLimited m s') with
          | some g => some { g with calls := m :: g.calls }
          | none => none
        else some { article := none, state := s', calls := [m] }
      | ApiResult.netErr => some { article := none, state := s', calls := [m] }

theorem countUnmarked_getNext_mark_lt {s : ModelState} {m : String} {s' : ModelState}
    (hg : getNextModel s = some (m, s')) :
    countUnmarked (markRateLimited m s') < countUnmarked s := by
  obtain ⟨hmem, hun, hrl⟩ := getNextModel_spec hg
  have he : countUnmarked (markRateLimited m s') = countUnmarked (markRateLimited m s) :=
    countUnmarked_rateLimited (by simp [markRateLimited, hrl])
  rw [he]
  exact countUnmarked_mark_lt hmem hun

theorem genArticleFuel_isSome (resp : String → ApiResult) :
    ∀ fuel s, countUnmarked s < fuel → (genArticleFuel resp fuel s).isSome = true := by
  intro fuel
  induction fuel with
  | zero => intro s h; omega
  | succ fuel ih =>
    intro s h
    unfold genArticleFuel
    cases hg : getNextModel s with
    | none => rfl
    | some p =>
      obtain ⟨m, s'⟩ := p
      dsimp only
      cases hr : resp m with
      | success content =>
        cases content with
        | some a =>
          dsimp only
          by_cases hl : 400 < a.length
          · rw [if_pos hl]; rfl
          · rw [if_neg hl]; rfl
        | none => rfl
      | httpErr status =>
        dsimp only
        by_cases h4 : status = 429
        · rw [if_pos h4]
          have hlt : countUnmarked (markRateLimited m s') < countUnmarked s :=
            countUnmarked_getNext_mark_lt hg
          have := ih (markRateLimited m s') (by omega)
          obtain ⟨g, hgg⟩ := Option.isSome_iff_exists.mp this
          rw [hgg]
          rfl
        · rw [if_neg h4]; rfl
      | netErr => rfl

theorem genArticleFuel_fuel_irrel (resp : String → ApiResult) :
    ∀ f₁ f₂ s, countUnmarked s < f₁ → countUnmarked s < f₂ →
      genArticleFuel resp f₁ s = genArticleFuel resp f₂ s := by
  intro f₁
  induction f₁ with
  | zero => intro f₂ s h; omega
  | succ f₁ ih =>
    intro f₂ s h₁ h₂
    cases f₂ with
    | zero => omega
    | succ f₂ =>
      show genArticleFuel resp (f₁ + 1) s = genArticleFuel resp (f₂ + 1) s
      unfold genArticleFuel
      cases hg : getNextModel s with
      | none => rfl
      | some p =>
        obtain ⟨m, s'⟩ := p
        dsimp only
        cases hr : resp m with
        | success content => rfl
        | httpErr status =>
          dsimp only
          by_cases h4 : status = 429
          · rw [if_pos h4, if_pos h4]
            have hlt : countUnmarked (markRateLimited m s') < countUnmarked s :=
              countUnmarked_getNext_mark_lt hg
            rw [ih f₂ (markRateLimited m s') (by omega) (by omega)]
          · rw [if_neg h4, if_neg h4]
        | netErr => rfl

/-- The recursive `generateBlogArticle` model loop (token present): one
call with the fuel shown sufficient by `genArticleFuel_isSome`. -/
def genArticleTok (resp : String → ApiResult) (s : ModelState) : GenResult :=
  (genArticleFuel resp (countUnmarked s + 1) s).getD
    { article := none, state := s, calls := [] }

theorem genArticleFuel_eq_tok (resp : String → ApiResult) {fuel : Nat} {s : ModelState}
    (h : countUnmarked s < fuel) :
    genArticleFuel resp fuel s = some (genArticleTok resp s) := by
  rw [genArticleFuel_fuel_irrel resp fuel (countUnmarked s + 1) s h (Nat.lt_succ_self _)]
  unfold genArticleTok
  obtain ⟨g, hg⟩ := Option.isSome_iff_exists.mp
    (genArticleFuel_isSome resp (countUnmarked s + 1) s (Nat.lt_succ_self _))
  rw [hg]
  rfl

/-- `generateBlogArticle(repo, readme, fileTree)` entry: without a token
the fallback summary for the (detailed) repo is returned at once, with no
endpoint call and no state change. -/
def generateBlogArticle (hasToken : Bool) (resp : String → ApiResult)
    (detailed : Repo) (s : ModelState) : GenResult :=
  if hasToken then genArticleTok resp s
  else { article := some (generateFallbackSummary detailed), state := s, calls := [] }

theorem getNextModelGo_none {s : ModelState}
    (h : ∀ m ∈ availableModels, s.rateLimited.contains m = true) :
    ∀ k i, getNextModelGo s k i = none := by
  intro k
  induction k with
  | zero => intro i; rfl
  | succ k ih =>
    intro i
    unfold getNextModelGo
    rw [if_pos (h _ (mem_availableModels_getD _))]
    exact ih (i + 1)

theorem genArticleTok_allMarked (resp : String → ApiResult) (s : ModelState)
    (h : ∀ m ∈ availableModels, s.rateLimited.contains m = true) :
    genArticleTok resp s = { article := none, state := s, calls := [] } := by
  have h0 : getNextModel s = none := getNextModelGo_none h _ _
  unfold genArticleTok
  unfold genArticleFuel
  rw [h0]
  rfl

theorem genArticleTok_429 (resp : String → ApiResult) {s : ModelState}
    {m : String} {s' : ModelState}
    (hg : getNextModel s = some (m, s')) (hr : resp m = ApiResult.httpErr 429) :
    genArticleTok resp s =
      { genArticleTok resp (markRateLimited m s') with
        calls := m :: (genArticleTok resp (markRateLimited m s')).calls } := by
  have hlt : countUnmarked (markRateLimited m s') < countUnmarked s :=
    countUnmarked_getNext_mark_lt hg
  conv_lhs => unfold genArticleTok
  conv_lhs => unfold genArticleFuel
  rw [hg]
  dsimp only
  rw [hr]
  dsimp only
  rw [if_pos rfl, genArticleFuel_eq_tok resp hlt]
  rfl

theorem genArticleTok_httpErr (resp : String → ApiResult) {s : ModelState}
    {m : String} {s' : ModelState} {c : Nat}
    (hg : getNextModel s = some (m, s')) (hr : resp m = ApiResult.httpErr c)
    (hne : c ≠ 429) :
    genArticleTok resp s = { article := none, state := s', calls := [m] } := by
  conv_lhs => unfold genArticleTok
  conv_lhs => unfold genArticleFuel
  rw [hg]
  dsimp only
  rw [hr]
  dsimp only
  rw [if_neg hne]
  rfl

theorem genArticleFuel_calls_le (resp : String → ApiResult) :
    ∀ fuel s g, genArticleFuel resp fuel s = some g →
      g.calls.length ≤ countUnmarked s := by
  intro fuel
  induction fuel with
  | zero => intro s g h; exact absurd h (by simp [genArticleFuel])
  | succ fuel ih =>
    intro s g h
    unfold genArticleFuel at h
    cases hg : getNextModel s with
    | none =>
      rw [hg] at h
      dsimp only at h
      simp only [Option.some.injEq] at h
      subst h
      simp
    | some p =>
      obtain ⟨m, s'⟩ := p
      rw [hg] at h
      dsimp only at h
      obtain ⟨hmem, hun, hrl⟩ := getNextModel_spec hg
      have h1 : 1 ≤ countUnmarked s := one_le_countUnmarked hmem hun
      cases hr : resp m with
      | success content =>
        rw [hr] at h
        dsimp only at h
        cases content with
        | some a =>
          dsimp only at h
          by_cases hl : 400 < a.length
          · rw [if_pos hl] at h
            simp only [Option.some.injEq] at h
            subst h
            simpa using h1
          · rw [if_neg hl] at h
            simp only [Option.some.injEq] at h
            subst h
            simpa using h1
        | none =>
          dsimp only at h
          simp only [Option.some.injEq] at h
          subst h
          simpa using h1
      | httpErr status =>
        rw [hr] at h
        dsimp only at h
        by_cases h4 : status = 429
        · rw [if_pos h4] at h
          have hlt : countUnmarked (markRateLimited m s') < countUnmarked s :=
            countUnmarked_getNext_mark_lt hg
          cases hrec : genArticleFuel resp fuel (markRateLimited m s') with
          | none => rw [hrec] at h; exact absurd h (by simp)
          | some g' =>
            rw [hrec] at h
            dsimp only at h
            simp only [Option.some.injEq] at h
            subst h
            have := ih (markRateLimited m s') g' hrec
            simp only [List.length_cons]
            omega
        · rw [if_neg h4] at h
          simp only [Option.some.injEq] at h
          subst h
          simpa using h1
      | netErr =>
        rw [hr] at h
        dsimp only at h
        simp only [Option.some.injEq] at h
        subst h
        simpa using h1

theorem genArticleTok_calls_le (resp : String → ApiResult) (s : ModelState) :
    (genArticleTok resp s).calls.length ≤ countUnmarked s :=
  genArticleFuel_calls_le resp (countUnmarked s + 1) s (genArticleTok resp s)
    (genArticleFuel_eq_tok resp (Nat.lt_succ_self _))

/-! ### Records, partition and the incremental run -/

/-- The configurable knobs of the incremental generator
(`CONFIG.reposToShow`, `CONFIG.batchSize`). -/
structure Config where
  reposToShow : Nat
  batchSize : Nat
deriving DecidableEq

/-- The concrete `CONFIG` of `update-forks.js` (incremental variant). -/
def CONFIG : Config := { reposToShow := 999, batchSize := 50 }

def noDescriptionText : String := "No description available"

def typeForkText : String := "fork"

def typeOriginalText : String := "original"

/-- JS `a || b` for two plain strings (empty string falsy). -/
def jsOrStrPlain (a b : String) : String :=
  if a.length = 0 then b else a

def unsplashPhotos : List String :=
  [ "1461749280684-dccba630e2f6", "1555066931-4365d14bab8c", "1504639725590-34d0984388bd",
    "1526374965328-7f61d4dc18c5", "1518770660439-4636190af475", "1451187580459-43490279c0fa",
    "1550751827-4bd374c3f58b", "1558494949-ef010cbdcc31", "1485827404703-89b55fcc595e",
    "1531482615713-2afd69097998", "1542831371-29b0f74f9713", "1607799279861-4dd421887fb3" ]

def unsplashUrlPre : String := "https://images.unsplash.com/photo-"

def unsplashUrlPost : String := "?w=800&h=400&fit=crop&q=80"

def getRandomUnsplashUrl (i : Nat) : String :=
  unsplashUrlPre ++ unsplashPhotos.getD (i % unsplashPhotos.length) emptyString ++ unsplashUrlPost

/-- ASCII whitespace for the `\s` class of the read-time word split. -/
def isWs (c : Char) : Bool :=
  c = ' ' || c = '\t' || c = '\n' || c = '\r'

/-- JS `content.split` on runs of whitespace: the number and shape of the
produced segments (a leading/trailing run yields an empty segment, as in
JS). -/
def splitWsGo (inWs : Bool) (cur : List Char) : List Char → List (List Char)
  | [] => [cur.reverse]
  | c :: rest =>
    if isWs c then
      if inWs then splitWsGo true [] rest
      else cur.reverse :: splitWsGo true [] rest
    else splitWsGo false (c :: cur) rest

def jsSplitWsCount (s : String) : Nat :=
  (splitWsGo false [] s.data).length

/-- `estimateReadTime(content)`: at least 2, else words divided by 200,
rounded up. -/
def estimateReadTime (content : String) : Nat :=
  max 2 ((jsSplitWsCount content + 199) / 200)

/-- One record of the persisted `forks.json` document. -/
structure ForkRecord where
  id : Nat
  name : String
  displayName : String
  description : String
  summary : String
  url : String
  language : Option String
  stars : Nat
  forks : Nat
  topics : List String
  parent : Option Parent
  type : String
  image : String
  forkedAt : Nat
  updatedAt : Nat
  readTime : Nat
deriving DecidableEq

/-- Enrichment data delivered by a successful `fetchRepoDetails` response. -/
structure DetailInfo where
  topics : List String
  parent : Option Parent
deriving DecidableEq

/-- `fetchRepoDetails(repo)`: on success the repo is spread with the
response topics and mapped parent; any failure leaves the repo unchanged. -/
def applyDetails (det : Repo → Option DetailInfo) (r : Repo) : Repo :=
  match det r with
  | some d => { r with topics := some d.topics, parent := d.parent }
  | none => r

/-- The record pushed for a batch-processed repo (incremental `main`,
generation loop). -/
def mkBatchRecord (detailed r : Repo) (i : Nat) (summary : String) : ForkRecord :=
  { id := r.id,
    name := r.name,
    displayName := displayName r.name,
    description := jsOrStr r.description noDescriptionText,
    summary := summary,
    url := r.htmlUrl,
    language := r.language,
    stars := r.stargazers,
    forks := r.forksCount,
    topics := detailed.topics.getD [],
    parent := detailed.parent,
    type := jsOrStrPlain r.rtype typeForkText,
    image := getRandomUnsplashUrl i,
    forkedAt := r.createdAt,
    updatedAt := r.updatedAt,
    readTime := estimateReadTime summary }

/-- The record pushed for a repo whose existing article is kept
(incremental `main`, preservation loop): spread of the existing record
with refreshed metadata, the article untouched. -/
def mergeRecord (r detailed : Repo) (e : ForkRecord) : ForkRecord :=
  { e with
    description := jsOrStr r.description e.description,
    language := r.language,
    stars := r.stargazers,
    forks := r.forksCount,
    topics := detailed.topics.getD e.topics,
    parent := jsOrOpt detailed.parent e.parent,
    type := r.rtype,
    updatedAt := r.updatedAt }

/-- `loadExistingArticles` + `existing.get(id)`: a JS `Map` built by
inserting the records in order (later duplicate ids overwrite earlier
ones). -/
def mapGet (feed : List ForkRecord) (i : Nat) : Option ForkRecord :=
  feed.foldl (fun acc f => if f.id == i then some f else acc) none

/-- The per-repo decision of the partition loop:
`existing && !isFallbackArticle(existing.summary)`. -/
def acceptableB (feed : List ForkRecord) (r : Repo) : Bool :=
  match mapGet feed r.id with
  | some e => !isFallbackArticle e.summary
  | none => false

/-- The partition loop of the incremental `main`: repos with an acceptable
existing article (paired with that record) versus repos needing
generation, both in input order. -/
def partitionRepos (feed : List ForkRecord) : List Repo → List (Repo × ForkRecord) × List Repo
  | [] => ([], [])
  | r :: rest =>
    match mapGet feed r.id with
    | some e =>
      if !isFallbackArticle e.summary then
        ((r, e) :: (partitionRepos feed rest).1, (partitionRepos feed rest).2)
      else
        ((partitionRepos feed rest).1, r :: (partitionRepos feed rest).2)
    | none => ((partitionRepos feed rest).1, r :: (partitionRepos feed rest).2)

/-- `needsGeneration.slice(0, CONFIG.batchSize)`. -/
def selectBatch (cfg : Config) (feed : List ForkRecord) (repos : List Repo) : List Repo :=
  ((partitionRepos feed (repos.take cfg.reposToShow)).2).take cfg.batchSize

/-- The mutable locals of the generation loop (`consecutiveRateLimits`,
`rateLimitHit`, `aiSuccessCount`, `aiCallCount`) plus the module model
state. -/
structure BatchAcc where
  state : ModelState
  consecutive : Nat
  rateLimitHit : Bool
  aiSuccess : Nat
  aiCalls : Nat
deriving DecidableEq

def initBatchAcc : BatchAcc :=
  { state := initModelState, consecutive := 0, rateLimitHit := false,
    aiSuccess := 0, aiCalls := 0 }

/-- One iteration of the generation loop up to the article decision: skip
the endpoint entirely once `rateLimitHit`; otherwise call
`generateBlogArticle`, counting consecutive failures and latching
`rateLimitHit` at three. -/
def batchStep (hasToken : Bool) (resp : Repo → String → ApiResult)
    (det : Repo → Option DetailInfo) (r : Repo) (acc : BatchAcc) :
    Option String × BatchAcc × List String :=
  if acc.rateLimitHit then (none, acc, [])
  else
    let g := generateBlogArticle hasToken (resp r) (applyDetails det r) acc.state
    let acc2 := { acc with state := g.state, aiCalls := acc.aiCalls + 1 }
    match g.article with
    | some a => (some a, { acc2 with consecutive := 0, aiSuccess := acc2.aiSuccess + 1 }, g.calls)
    | none =>
      (none,
        { acc2 with consecutive := acc2.consecutive + 1,
                    rateLimitHit := decide (3 ≤ acc2.consecutive + 1) },
        g.calls)

/-- The generation loop over the selected batch: produces the pushed
records, the final loop state and the concatenated endpoint-call trace. -/
def processBatchGo (hasToken : Bool) (resp : Repo → String → ApiResult)
    (det : Repo → Option DetailInfo) :
    Nat → BatchAcc → List Repo → List ForkRecord × BatchAcc × List String
  | _, acc, [] => ([], acc, [])
  | i, acc, r :: rest =>
    let step := batchStep hasToken resp det r acc
    let finalArticle := step.1.getD (generateFallbackSummary r)
    let record := mkBatchRecord (applyDetails det r) r i finalArticle
    let restOut := processBatchGo hasToken resp det (i + 1) step.2.1 rest
    (record :: restOut.1, restOut.2.1, step.2.2 ++ restOut.2.2)

def processBatch (hasToken : Bool) (resp : Repo → String → ApiResult)
    (det : Repo → Option DetailInfo) (batch : List Repo) :
    List ForkRecord × BatchAcc × List String :=
  processBatchGo hasToken resp det 0 initBatchAcc batch

/-- Descending order on the update instant (the final feed sort). -/
def updGe (a b : ForkRecord) : Prop := b.updatedAt ≤ a.updatedAt

instance : DecidableRel updGe := fun a b => Nat.decLe b.updatedAt a.updatedAt

instance : IsTotal ForkRecord updGe :=
  ⟨fun a b => Nat.le_total b.updatedAt a.updatedAt⟩

instance : IsTrans ForkRecord updGe :=
  ⟨fun _ _ _ hab hbc => Nat.le_trans hbc hab⟩

def sortForks (l : List ForkRecord) : List ForkRecord :=
  List.insertionSort updGe l

structure Progress where
  aiGenerated : Nat
  fallback : Nat
  pending : Nat
  complete : Bool
deriving DecidableEq

/-- The written `forks.json` document (run metadata plus records). -/
structure RunOutput where
  totalRepos : Nat
  progress : Progress
  forks : List ForkRecord
deriving DecidableEq

/-- One run of the incremental `main` after the repository fetch: takes
the configuration, whether a token is present, the completion-endpoint
behaviour `resp`, the detail-fetch behaviour `det`, the previously
persisted records and the fetched repository list; returns the produced
document and the trace of completion-endpoint calls. -/
def runMain (cfg : Config) (hasToken : Bool) (resp : Repo → String → ApiResult)
    (det : Repo → Option DetailInfo) (feed : List ForkRecord) (repos : List Repo) :
    RunOutput × List String :=
  let recent := repos.take cfg.reposToShow
  let parts := partitionRepos feed recent
  let needsGeneration := parts.2
  let batch := needsGeneration.take cfg.batchSize
  let preserved := parts.1.map fun p => mergeRecord p.1 (applyDetails det p.1) p.2
  let pb := processBatch hasToken resp det batch
  let forks := sortForks (preserved ++ pb.1)
  let aiCount := (forks.filter fun f => !isFallbackArticle f.summary).length
  let pending := needsGeneration.length - batch.length
  ({ totalRepos := forks.length,
     progress :=
       { aiGenerated := aiCount, fallback := forks.length - aiCount,
         pending := pending, complete := pending == 0 },
     forks := forks },
   pb.2.2)

/-! ### The simple generator variants -/

def simpleT1a : String := "A compelling "

def simpleT1b : String := " project that explores "

def simpleT1c : String :=
  ". Worth diving into for developers interested in modern software patterns and clean implementations."

def simpleT2a : String := " offers an interesting approach built with "

def simpleT2b : String :=
  ". The codebase demonstrates practical solutions that could accelerate your next project."

def simpleT3a : String := "Exploring "

def simpleT3b : String := " — a "

def simpleT3c : String :=
  " repository that caught my attention. It showcases techniques worth understanding for any serious developer."

/-- The three fixed templates of the simple `generateFallbackSummary`
(`update-forks.js` lines 97-101, `part_000` lines 132-136). -/
def simpleFallbackTemplates (repo : Repo) : List String :=
  let lang := jsOrStr repo.language variousTechText
  let name := displayName repo.name
  [ simpleT1a ++ lang ++ simpleT1b ++ name ++ simpleT1c,
    name ++ simpleT2a ++ lang ++ simpleT2b,
    simpleT3a ++ name ++ simpleT3b ++ lang ++ simpleT3c ]

/-- The simple `generateFallbackSummary(repo)`: a long description is
returned as is, otherwise one of three fixed templates chosen by
`Math.random` (modelled by the `choice` input). -/
def generateFallbackSummarySimple (repo : Repo) (choice : Nat) : String :=
  let desc := repo.description.getD emptyString
  if 50 < desc.length then desc
  else (simpleFallbackTemplates repo).getD (choice % 3) emptyString

/-- The simple `generateBlogSummary(repo)`: without a token it returns the
fallback at once; with one it makes a single endpoint call (second
component counts calls) and falls back on failure, short content or
error. -/
def generateBlogSummarySimple (hasToken : Bool) (resp : ApiResult) (repo : Repo)
    (choice : Nat) : String × Nat :=
  if hasToken then
    match resp with
    | ApiResult.success (some s) =>
      (if 20 < s.length then s else generateFallbackSummarySimple repo choice, 1)
    | ApiResult.success none => (generateFallbackSummarySimple repo choice, 1)
    | ApiResult.httpErr _ => (generateFallbackSummarySimple repo choice, 1)
    | ApiResult.netErr => (generateFallbackSummarySimple repo choice, 1)
  else (generateFallbackSummarySimple repo choice, 0)

/-! ### Partition characterization -/

theorem not_any_eq_all_not {α : Type} (l : List α) (p : α → Bool) :
    (!(l.any p)) = l.all fun x => !p x := by
  induction l with
  | nil => rfl
  | cons a t ih => simp [List.any_cons, List.all_cons, Bool.not_or, ih]

/-- The acceptability predicate in the spec's wording, with the amended
threshold: the article exists, has length at least 400, and contains no
denylist phrase under case-insensitive substring matching. -/
def acceptableSpecAtLeast (e : Option ForkRecord) : Bool :=
  match e with
  | none => false
  | some rec =>
    decide (400 ≤ rec.summary.length) &&
      badPhrases.all fun p => !jsIncludes (jsLower rec.summary) (jsLower p)

/-- The claim's literal acceptability predicate: the article exists, has
length strictly exceeding 400, and contains no denylist phrase. -/
def acceptableClaimStrict (e : Option ForkRecord) : Bool :=
  match e with
  | none => false
  | some rec =>
    decide (400 < rec.summary.length) &&
      badPhrases.all fun p => !jsIncludes (jsLower rec.summary) (jsLower p)

theorem not_isFallback_eq (s : String) :
    (!isFallbackArticle s) =
      (decide (400 ≤ s.length) &&
        badPhrases.all fun p => !jsIncludes (jsLower s) (jsLower p)) := by
  unfold isFallbackArticle
  by_cases h : s.length < 400
  · rw [if_pos h]
    have hd : decide (400 ≤ s.length) = false := by
      simp only [decide_eq_false_iff_not]
      omega
    rw [hd]
    rfl
  · rw [if_neg h]
    have hd : decide (400 ≤ s.length) = true := by
      simp only [decide_eq_true_eq]
      omega
    rw [hd, Bool.true_and]
    exact not_any_eq_all_not _ _

theorem acceptableB_eq_spec (feed : List ForkRecord) (r : Repo) :
    acceptableB feed r = acceptableSpecAtLeast (mapGet feed r.id) := by
  unfold acceptableB acceptableSpecAtLeast
  cases mapGet feed r.id with
  | none => rfl
  | some e => exact not_isFallback_eq e.summary

theorem acceptableB_of_mapGet_none {feed : List ForkRecord} {r : Repo}
    (hm : mapGet feed r.id = none) : acceptableB feed r = false := by
  unfold acceptableB
  rw [hm]

theorem acceptableB_of_mapGet_some {feed : List ForkRecord} {r : Repo} {e : ForkRecord}
    (hm : mapGet feed r.id = some e) :
    acceptableB feed r = !isFallbackArticle e.summary := by
  unfold acceptableB
  rw [hm]

theorem partitionRepos_snd (feed : List ForkRecord) (l : List Repo) :
    (partitionRepos feed l).2 = l.filter fun r => !acceptableB feed r := by
  induction l with
  | nil => rfl
  | cons r rest ih =>
    cases hm : mapGet feed r.id with
    | none =>
      simp [partitionRepos, hm, List.filter_cons, ih, acceptableB_of_mapGet_none hm]
    | some e =>
      by_cases hf : isFallbackArticle e.summary
      · simp [partitionRepos, hm, List.filter_cons, ih, acceptableB_of_mapGet_some hm, hf]
      · simp [partitionRepos, hm, List.filter_cons, ih, acceptableB_of_mapGet_some hm, hf]

theorem partitionRepos_fst_map (feed : List ForkRecord) (l : List Repo) :
    (partitionRepos feed l).1.map Prod.fst = l.filter fun r => acceptableB feed r := by
  induction l with
  | nil => rfl
  | cons r rest ih =>
    cases hm : mapGet feed r.id with
    | none =>
      simp [partitionRepos, hm, List.filter_cons, ih, acceptableB_of_mapGet_none hm]
    | some e =>
      by_cases hf : isFallbackArticle e.summary
      · simp [partitionRepos, hm, List.filter_cons, ih, acceptableB_of_mapGet_some hm, hf]
      · simp [partitionRepos, hm, List.filter_cons, ih, acceptableB_of_mapGet_some hm, hf]

theorem partitionRepos_fst_mem {feed : List ForkRecord} {l : List Repo} :
    ∀ p ∈ (partitionRepos feed l).1,
      p.1 ∈ l ∧ mapGet feed p.1.id = some p.2 ∧ isFallbackArticle p.2.summary = false := by
  induction l with
  | nil => intro p hp; exact absurd hp (by simp [partitionRepos])
  | cons r rest ih =>
    intro p hp
    cases hm : mapGet feed r.id with
    | none =>
      rw [partitionRepos, hm] at hp
      dsimp only at hp
      obtain ⟨h1, h2, h3⟩ := ih p hp
      exact ⟨List.mem_cons_of_mem _ h1, h2, h3⟩
    | some e =>
      rw [partitionRepos, hm] at hp
      dsimp only at hp
      by_cases hf : isFallbackArticle e.summary
      · rw [if_neg (by simp [hf])] at hp
        obtain ⟨h1, h2, h3⟩ := ih p hp
        exact ⟨List.mem_cons_of_mem _ h1, h2, h3⟩
      · rw [if_pos (by simp [hf])] at hp
        rcases List.mem_cons.mp hp with h | h
        · subst h
          exact ⟨List.mem_cons_self _ _, hm, by simp [hf]⟩
        · obtain ⟨h1, h2, h3⟩ := ih p h
          exact ⟨List.mem_cons_of_mem _ h1, h2, h3⟩

theorem mem_partitionRepos_fst {feed : List ForkRecord} {l : List Repo} {r : Repo}
    {e : ForkRecord} (hr : r ∈ l) (hm : mapGet feed r.id = some e)
    (hf : isFallbackArticle e.summary = false) :
    (r, e) ∈ (partitionRepos feed l).1 := by
  induction l with
  | nil => cases hr
  | cons a rest ih =>
    rcases List.mem_cons.mp hr with h | h
    · subst h
      rw [partitionRepos, hm]
      dsimp only
      rw [if_pos (by simp [hf])]
      exact List.mem_cons_self _ _
    · have hmem := ih h
      cases hm2 : mapGet feed a.id with
      | none =>
        rw [partitionRepos, hm2]
        exact hmem
      | some e2 =>
        rw [partitionRepos, hm2]
        dsimp only
        by_cases hf2 : isFallbackArticle e2.summary
        · rw [if_neg (by simp [hf2])]
          exact hmem
        · rw [if_pos (by simp [hf2])]
          exact List.mem_cons_of_mem _ hmem

/-! ### Claim C3 -/

def xChar : Char := 'x'

/-- A 400-character article containing no denylist phrase. -/
def summary400 : String := String.mk (List.replicate 400 xChar)

def recBoundary : ForkRecord :=
  { id := 7, name := emptyString, displayName := emptyString, description := emptyString,
    summary := summary400, url := emptyString, language := none, stars := 0, forks := 0,
    topics := [], parent := none, type := typeForkText, image := emptyString,
    forkedAt := 0, updatedAt := 0, readTime := 2 }

def repoBoundary : Repo :=
  { id := 7, name := emptyString, description := none, language := none, stargazers := 0,
    forksCount := 0, topics := none, parent := none, htmlUrl := emptyString,
    createdAt := 0, updatedAt := 0, fork := false, archived := false, rtype := typeForkText }

/-- C3 counterexample: an existing article of length exactly 400 with no
denylist phrase fails the claim's predicate (length must *exceed* 400),
yet the run does not queue the repository for regeneration — it is carried
forward as acceptable. -/
theorem c3_counterexample :
    acceptableClaimStrict (mapGet [recBoundary] repoBoundary.id) = false ∧
    (partitionRepos [recBoundary] [repoBoundary]).2 = [] ∧
    (partitionRepos [recBoundary] [repoBoundary]).1 = [(repoBoundary, recBoundary)] := by
  decide

/-- C3 (amended: the length condition is `at least 400`, not `exceeds
400`): the run partitions the selected repositories by the acceptability
predicate — an existing article is acceptable exactly when it exists, its
length is at least the minimum threshold 400 and it contains none of the
denylist phrases case-insensitively; repositories failing this go to the
regeneration queue in order, the rest are carried forward with their
records. -/
theorem c3_partition_by_quality (feed : List ForkRecord) (l : List Repo) :
    (partitionRepos feed l).2 =
        l.filter (fun r => !acceptableSpecAtLeast (mapGet feed r.id)) ∧
      (partitionRepos feed l).1.map Prod.fst =
        l.filter (fun r => acceptableSpecAtLeast (mapGet feed r.id)) ∧
      ∀ p ∈ (partitionRepos feed l).1, mapGet feed p.1.id = some p.2 := by
  refine ⟨?_, ?_, ?_⟩
  · rw [partitionRepos_snd]
    exact List.filter_congr fun r _ => by rw [acceptableB_eq_spec]
  · rw [partitionRepos_fst_map]
    exact List.filter_congr fun r _ => by rw [acceptableB_eq_spec]
  · intro p hp
    exact (partitionRepos_fst_mem p hp).2.1

/-- Witness for `c3_partition_by_quality` at a concrete input. -/
theorem c3_partition_by_quality_witness :
    (partitionRepos [recBoundary] [repoBoundary]).2 =
        [repoBoundary].filter (fun r => !acceptableSpecAtLeast (mapGet [recBoundary] r.id)) ∧
      (partitionRepos [recBoundary] [repoBoundary]).1.map Prod.fst =
        [repoBoundary].filter (fun r => acceptableSpecAtLeast (mapGet [recBoundary] r.id)) ∧
      ∀ p ∈ (partitionRepos [recBoundary] [repoBoundary]).1,
        mapGet [recBoundary] p.1.id = some p.2 :=
  c3_partition_by_quality [recBoundary] [repoBoundary]

/-! ### Claim C2 -/

/-- C2: in any single run, the repositories selected for regeneration are
the first `batchSize` of the regeneration queue — never more than the
configured cap — and the queue splits exactly into the processed batch
followed by the deferred remainder; the run reports the deferred count as
`pending`. -/
theorem c2_batch_cap (cfg : Config) (hasToken : Bool) (resp : Repo → String → ApiResult)
    (det : Repo → Option DetailInfo) (feed : List ForkRecord) (repos : List Repo) :
    (selectBatch cfg feed repos).length ≤ cfg.batchSize ∧
    selectBatch cfg feed repos ++
        ((partitionRepos feed (repos.take cfg.reposToShow)).2).drop cfg.batchSize =
      (partitionRepos feed (repos.take cfg.reposToShow)).2 ∧
    (runMain cfg hasToken resp det feed repos).1.progress.pending =
      (partitionRepos feed (repos.take cfg.reposToShow)).2.length -
        (selectBatch cfg feed repos).length ∧
    (selectBatch CONFIG feed repos).length ≤ 50 := by
  refine ⟨List.length_take_le _ _, List.take_append_drop _ _, rfl, List.length_take_le _ _⟩

/-! ### Claim C4 -/

theorem fallback_applyDetails (det : Repo → Option DetailInfo) (r : Repo) :
    generateFallbackSummary (applyDetails det r) = generateFallbackSummary r := by
  unfold applyDetails
  cases det r <;> rfl

theorem batchStep_noToken (resp : Repo → String → ApiResult)
    (det : Repo → Option DetailInfo) (r : Repo) (acc : BatchAcc)
    (h : acc.rateLimitHit = false) :
    batchStep false resp det r acc =
      (some (generateFallbackSummary r),
        { state := acc.state, consecutive := 0, rateLimitHit := false,
          aiSuccess := acc.aiSuccess + 1, aiCalls := acc.aiCalls + 1 }, []) := by
  obtain ⟨st, co, rl, su, ca⟩ := acc
  simp only at h
  subst h
  simp [batchStep, generateBlogArticle, fallback_applyDetails]

theorem processBatchGo_noToken (resp : Repo → String → ApiResult)
    (det : Repo → Option DetailInfo) :
    ∀ batch i acc, acc.rateLimitHit = false →
      (processBatchGo false resp det i acc batch).1.map ForkRecord.summary =
          batch.map generateFallbackSummary ∧
        (processBatchGo false resp det i acc batch).2.2 = [] := by
  intro batch
  induction batch with
  | nil => intro i acc h; exact ⟨rfl, rfl⟩
  | cons r rest ih =>
    intro i acc h
    have hstep := batchStep_noToken resp det r acc h
    obtain ⟨h1, h2⟩ := ih (i + 1)
      { state := acc.state, consecutive := 0, rateLimitHit := false,
        aiSuccess := acc.aiSuccess + 1, aiCalls := acc.aiCalls + 1 } rfl
    unfold processBatchGo
    rw [hstep]
    dsimp only
    refine ⟨?_, ?_⟩
    · rw [List.map_cons, h1]
      rfl
    · rw [h2]
      rfl

/-- C4: with the access token absent, a run makes no completion-endpoint
call (the call trace is empty), every article produced for the processed
batch is the deterministic incremental fallback template, and the simple
generator likewise returns its (randomly chosen) fallback template with
zero endpoint calls. -/
theorem c4_no_token_fallback_only (cfg : Config) (resp : Repo → String → ApiResult)
    (det : Repo → Option DetailInfo) (feed : List ForkRecord) (repos : List Repo)
    (respS : ApiResult) (repo : Repo) (choice : Nat) :
    (runMain cfg false resp det feed repos).2 = [] ∧
    (processBatch false resp det (selectBatch cfg feed repos)).1.map ForkRecord.summary =
      (selectBatch cfg feed repos).map generateFallbackSummary ∧
    generateBlogSummarySimple false respS repo choice =
      (generateFallbackSummarySimple repo choice, 0) := by
  refine ⟨?_, (processBatchGo_noToken resp det _ 0 initBatchAcc rfl).1, rfl⟩
  exact (processBatchGo_noToken resp det (selectBatch cfg feed repos) 0 initBatchAcc rfl).2

/-! ### Claim C10 -/

/-- C10: the incremental fallback template always embeds a denylist phrase
(each of its two branches does), so a fallback-filled record is classified
as needing regeneration on the next run. -/
theorem c10_fallback_requeued (repo : Repo) :
    isFallbackArticle (generateFallbackSummary repo) = true :=
  isFallback_fallback repo

/-! ### Claims C5, C6, C7 -/

/-- The unreachable-remote completion endpoint: every request errors. -/
def respNone : Repo → String → ApiResult := fun _ _ => ApiResult.netErr

/-- Unreachable detail fetches: every enrichment fails, leaving repos
unchanged. -/
def detNone : Repo → Option DetailInfo := fun _ => none

theorem isFallback_eq_false_of {s : String} (hlen : 400 ≤ s.length)
    (hph : ∀ p ∈ badPhrases, jsIncludes (jsLower s) (jsLower p) = false) :
    isFallbackArticle s = false := by
  unfold isFallbackArticle
  rw [if_neg (by omega)]
  rw [List.any_eq_false]
  intro p hp
  simp [hph p hp]

/-- C5: a repository of the selected list whose persisted article passes
the quality check (length above the threshold, no denylist phrase) keeps
that article through any run — in particular an unreachable-remote run,
since the endpoint behaviour is universally quantified — while the star
count, fork count, language, type and update instant are refreshed from
the fetched repository. -/
theorem c5_acceptable_preserved (cfg : Config) (hasToken : Bool)
    (resp : Repo → String → ApiResult) (det : Repo → Option DetailInfo)
    (feed : List ForkRecord) (repos : List Repo) (r : Repo) (e : ForkRecord)
    (hr : r ∈ repos.take cfg.reposToShow)
    (hm : mapGet feed r.id = some e)
    (hlen : 400 < e.summary.length)
    (hph : ∀ p ∈ badPhrases, jsIncludes (jsLower e.summary) (jsLower p) = false) :
    ∃ f ∈ (runMain cfg hasToken resp det feed repos).1.forks,
      f = mergeRecord r (applyDetails det r) e ∧
      f.summary = e.summary ∧ f.id = e.id ∧ f.name = e.name ∧ f.url = e.url ∧
      f.image = e.image ∧ f.forkedAt = e.forkedAt ∧ f.readTime = e.readTime ∧
      f.stars = r.stargazers ∧ f.forks = r.forksCount ∧ f.language = r.language ∧
      f.updatedAt = r.updatedAt ∧ f.type = r.rtype := by
  have hf : isFallbackArticle e.summary = false :=
    isFallback_eq_false_of (by omega) hph
  have hpart : (r, e) ∈ (partitionRepos feed (repos.take cfg.reposToShow)).1 :=
    mem_partitionRepos_fst hr hm hf
  refine ⟨mergeRecord r (applyDetails det r) e, ?_, rfl, rfl, rfl, rfl, rfl, rfl,
    rfl, rfl, rfl, rfl, rfl, rfl, rfl⟩
  show mergeRecord r (applyDetails det r) e ∈ sortForks _
  rw [sortForks]
  rw [(List.perm_insertionSort updGe _).mem_iff]
  refine List.mem_append_left _ ?_
  exact List.mem_map.mpr ⟨(r, e), hpart, rfl⟩

/-- A 401-character article containing no denylist phrase. -/
def summary401 : String := String.mk (List.replicate 401 xChar)

def recGood : ForkRecord :=
  { id := 3, name := emptyString, displayName := emptyString, description := emptyString,
    summary := summary401, url := emptyString, language := none, stars := 5, forks := 0,
    topics := [], parent := none, type := typeForkText, image := emptyString,
    forkedAt := 0, updatedAt := 11, readTime := 2 }

def repoGood : Repo :=
  { id := 3, name := emptyString, description := none, language := none, stargazers := 9,
    forksCount := 1, topics := none, parent := none, htmlUrl := emptyString,
    createdAt := 0, updatedAt := 12, fork := false, archived := false,
    rtype := typeOriginalText }

/-- Witness for `c5_acceptable_preserved` at a concrete unreachable-remote
run. -/
theorem c5_acceptable_preserved_witness :
    ∃ f ∈ (runMain CONFIG true respNone detNone [recGood] [repoGood]).1.forks,
      f = mergeRecord repoGood (applyDetails detNone repoGood) recGood ∧
      f.summary = recGood.summary ∧ f.id = recGood.id ∧ f.name = recGood.name ∧
      f.url = recGood.url ∧ f.image = recGood.image ∧ f.forkedAt = recGood.forkedAt ∧
      f.readTime = recGood.readTime ∧ f.stars = repoGood.stargazers ∧
      f.forks = repoGood.forksCount ∧ f.language = repoGood.language ∧
      f.updatedAt = repoGood.updatedAt ∧ f.type = repoGood.rtype :=
  c5_acceptable_preserved CONFIG true respNone detNone [recGood] [repoGood]
    repoGood recGood (by decide) (by decide) (by decide) (by decide)

/-- C6: with the token present — if every model is marked rate-limited the
generator returns no article, no state change and no endpoint call (and
the batch loop then substitutes the fallback summary for the record); a
429 response marks the selected model for the rest of the run and the
result is that of recursing with the next available model; a non-429
failure yields no article after exactly one call, without retry. -/
theorem c6_rate_limit_rotation (resp : String → ApiResult) (s : ModelState) :
    ((∀ m ∈ availableModels, s.rateLimited.contains m = true) →
        genArticleTok resp s = { article := none, state := s, calls := [] }) ∧
      (∀ m s', getNextModel s = some (m, s') → resp m = ApiResult.httpErr 429 →
        genArticleTok resp s =
            { genArticleTok resp (markRateLimited m s') with
              calls := m :: (genArticleTok resp (markRateLimited m s')).calls } ∧
          (markRateLimited m s').rateLimited.contains m = true) ∧
      (∀ m s' c, getNextModel s = some (m, s') → resp m = ApiResult.httpErr c →
        c ≠ 429 → genArticleTok resp s = { article := none, state := s', calls := [m] }) ∧
      (∀ (resp2 : Repo → String → ApiResult) (det : Repo → Option DetailInfo)
        (i co su ca : Nat) (r : Repo) (rest : List Repo),
        (∀ m ∈ availableModels, s.rateLimited.contains m = true) →
        ((processBatchGo true resp2 det i
            { state := s, consecutive := co, rateLimitHit := false,
              aiSuccess := su, aiCalls := ca } (r :: rest)).1.head?).map
            ForkRecord.summary = some (generateFallbackSummary r)) := by
  refine ⟨?_, ?_, ?_, ?_⟩
  · intro h
    exact genArticleTok_allMarked resp s h
  · intro m s' hg hr
    refine ⟨genArticleTok_429 resp hg hr, ?_⟩
    simp [markRateLimited]
  · intro m s' c hg hr hne
    exact genArticleTok_httpErr resp hg hr hne
  · intro resp2 det i co su ca r rest hall
    unfold processBatchGo
    unfold batchStep
    rw [if_neg (by simp)]
    dsimp only [generateBlogArticle, if_true]
    rw [genArticleTok_allMarked (resp2 r) s hall]
    rfl

/-- The all-marked model state used by the C6 witness. -/
def allMarkedState : ModelState := { rateLimited := availableModels, currentModelIndex := 0 }

/-- Witness for `c6_rate_limit_rotation`: with every model marked, the
generator returns no article and makes no call. -/
theorem c6_rate_limit_rotation_witness :
    genArticleTok (fun _ => ApiResult.netErr) allMarkedState =
      { article := none, state := allMarkedState, calls := [] } :=
  (c6_rate_limit_rotation (fun _ => ApiResult.netErr) allMarkedState).1 (by decide)

/-- C7: the 429 retry recursion is bounded — the number of unmarked models
never exceeds the size of the fixed model list, each top-level call makes
at most that many endpoint calls, and any fuel above the unmarked count
makes the fueled loop return (so the recursion terminates within the
model-list bound). -/
theorem c7_retry_bounded (resp : String → ApiResult) (s : ModelState) :
    countUnmarked s ≤ availableModels.length ∧
      (genArticleTok resp s).calls.length ≤ countUnmarked s ∧
      ∀ fuel, countUnmarked s < fuel →
        genArticleFuel resp fuel s = some (genArticleTok resp s) :=
  ⟨countUnmarked_le s, genArticleTok_calls_le resp s,
    fun _ h => genArticleFuel_eq_tok resp h⟩

/-- Witness for `c7_retry_bounded`: with fuel 4 (model-list size plus one
step) the fueled loop returns on the always-429 endpoint from the fresh
state. -/
theorem c7_retry_bounded_witness :
    genArticleFuel (fun _ => ApiResult.httpErr 429) 4 initModelState =
      some (genArticleTok (fun _ => ApiResult.httpErr 429) initModelState) :=
  (c7_retry_bounded (fun _ => ApiResult.httpErr 429) initModelState).2.2 4 (by decide)

/-! ### Claim C8: repository listing -/

def githubIoText : String := ".github.io"

/-- The `_type` tagging pass of `fetchRepos`. -/
def tagRepo (r : Repo) : Repo :=
  { r with rtype := if r.fork then typeForkText else typeOriginalText }

/-- The filter of `fetchRepos`: name free of the site-hosting pattern and
not archived. -/
def keepRepo (r : Repo) : Bool :=
  !(jsIncludes r.name githubIoText) && !r.archived

/-- Descending order on the update instant for repositories. -/
def updGeRepo (a b : Repo) : Prop := b.updatedAt ≤ a.updatedAt

instance : DecidableRel updGeRepo := fun a b => Nat.decLe b.updatedAt a.updatedAt

instance : IsTotal Repo updGeRepo := ⟨fun a b => Nat.le_total b.updatedAt a.updatedAt⟩

instance : IsTrans Repo updGeRepo := ⟨fun _ _ _ hab hbc => Nat.le_trans hbc hab⟩

/-- The pure core of `fetchRepos()` applied to the concatenated pages: tag
each repository fork/original, drop those whose name contains the
site-hosting pattern and the archived ones, sort by update recency
descending. -/
def fetchReposPure (raw : List Repo) : List Repo :=
  List.insertionSort updGeRepo ((raw.map tagRepo).filter keepRepo)

/-- C8: `fetchRepos` returns exactly the non-archived repositories whose
name avoids the site-hosting pattern, each tagged `fork`/`original` from
its fork flag, sorted descending by update instant: the result is a
permutation of the tagged filtered input, it is sorted, every member is
kept and correctly tagged, and every kept input repo appears. -/
theorem c8_fetchRepos_filter_sort (raw : List Repo) :
    List.Perm (fetchReposPure raw) ((raw.map tagRepo).filter keepRepo) ∧
      List.Sorted updGeRepo (fetchReposPure raw) ∧
      (∀ r ∈ fetchReposPure raw,
        r.archived = false ∧ jsIncludes r.name githubIoText = false ∧
          r.rtype = (if r.fork then typeForkText else typeOriginalText) ∧
          r ∈ raw.map tagRepo) ∧
      ∀ r0 ∈ raw, keepRepo (tagRepo r0) = true → tagRepo r0 ∈ fetchReposPure raw := by
  refine ⟨List.perm_insertionSort _ _, List.sorted_insertionSort _ _, ?_, ?_⟩
  · intro r hr
    rw [fetchReposPure, (List.perm_insertionSort updGeRepo _).mem_iff] at hr
    obtain ⟨hmem, hkeep⟩ := List.mem_filter.mp hr
    have hk := hkeep
    unfold keepRepo at hk
    rw [Bool.and_eq_true] at hk
    obtain ⟨r0, _, hr0⟩ := List.mem_map.mp hmem
    refine ⟨by simpa using hk.2, by simpa using hk.1, ?_, hmem⟩
    rw [← hr0]
    rfl
  · intro r0 hr0 hkeep
    rw [fetchReposPure, (List.perm_insertionSort updGeRepo _).mem_iff]
    exact List.mem_filter.mpr ⟨List.mem_map_of_mem _ hr0, hkeep⟩

def rawArchived : Repo :=
  { id := 21, name := emptyString, description := none, language := none, stargazers := 0,
    forksCount := 0, topics := none, parent := none, htmlUrl := emptyString,
    createdAt := 0, updatedAt := 9, fork := false, archived := true, rtype := emptyString }

def rawKept : Repo :=
  { id := 22, name := emptyString, description := none, language := none, stargazers := 0,
    forksCount := 0, topics := none, parent := none, htmlUrl := emptyString,
    createdAt := 0, updatedAt := 4, fork := true, archived := false, rtype := emptyString }

/-- Witness for `c8_fetchRepos_filter_sort`: the kept repository appears in
the result of a concrete listing. -/
theorem c8_fetchRepos_filter_sort_witness :
    tagRepo rawKept ∈ fetchReposPure [rawArchived, rawKept] :=
  (c8_fetchRepos_filter_sort [rawArchived, rawKept]).2.2.2 rawKept (by decide) (by decide)

/-! ### Claim C9: single write, exit codes -/

/-- `loadExistingArticles()`: the records of the persisted document, or
nothing when no document exists (or parsing fails). -/
def loadExistingForks (persisted : Option RunOutput) : List ForkRecord :=
  match persisted with
  | some doc => doc.forks
  | none => []

/-- Observable outcome of one whole process run: the final persisted
document, the trace of `writeFileSync` calls, and the exit code. -/
structure ProcessResult where
  persisted : Option RunOutput
  writes : List RunOutput
  exitCode : Nat
deriving DecidableEq

/-- `main().catch(err => ...)`: the repository listing either throws (the
only uncaught failure point before the final write — detail, readme, tree
and completion failures are all caught locally), aborting with exit 1 and
no write; or the run completes and the single `writeFileSync` happens at
the very end, followed by exit 0. -/
def mainProcess (cfg : Config) (hasToken : Bool) (resp : Repo → String → ApiResult)
    (det : Repo → Option DetailInfo) (persisted : Option RunOutput)
    (fetchResult : Except Nat (List Repo)) : ProcessResult :=
  match fetchResult with
  | Except.error _ => { persisted := persisted, writes := [], exitCode := 1 }
  | Except.ok repos =>
    { persisted := some (runMain cfg hasToken resp det (loadExistingForks persisted) repos).1,
      writes := [(runMain cfg hasToken resp det (loadExistingForks persisted) repos).1],
      exitCode := 0 }

/-- C9: a run writes the output document exactly once, at the end — when
the fetch fails, the prior document is untouched, nothing is written and
the process exits 1; on success exactly one write happens, it is the final
persisted document, and the process exits 0. -/
theorem c9_single_write_exit_codes (cfg : Config) (hasToken : Bool)
    (resp : Repo → String → ApiResult) (det : Repo → Option DetailInfo)
    (persisted : Option RunOutput) (fetchResult : Except Nat (List Repo)) :
    (∀ e, fetchResult = Except.error e →
      mainProcess cfg hasToken resp det persisted fetchResult =
        { persisted := persisted, writes := [], exitCode := 1 }) ∧
    (∀ repos, fetchResult = Except.ok repos →
      (mainProcess cfg hasToken resp det persisted fetchResult).writes =
          [(runMain cfg hasToken resp det (loadExistingForks persisted) repos).1] ∧
        (mainProcess cfg hasToken resp det persisted fetchResult).persisted =
          some (runMain cfg hasToken resp det (loadExistingForks persisted) repos).1 ∧
        (mainProcess cfg hasToken resp det persisted fetchResult).exitCode = 0) := by
  constructor
  · intro e he
    rw [he]
    rfl
  · intro repos hr
    rw [hr]
    exact ⟨rfl, rfl, rfl⟩

/-- Witness for `c9_single_write_exit_codes`: a failed listing leaves no
document and exits 1. -/
theorem c9_single_write_exit_codes_witness :
    mainProcess CONFIG true respNone detNone none (Except.error 500) =
      { persisted := none, writes := [], exitCode := 1 } :=
  (c9_single_write_exit_codes CONFIG true respNone detNone none (Except.error 500)).1
    500 rfl

/-! ### Map-lookup lemmas -/

theorem foldl_mapGet_override (i : Nat) (t : List ForkRecord) :
    ∀ acc : Option ForkRecord,
      t.foldl (fun acc f => if f.id == i then some f else acc) acc =
        match t.foldl (fun acc f => if f.id == i then some f else acc) none with
        | some f => some f
        | none => acc := by
  induction t with
  | nil => intro acc; rfl
  | cons b t ih =>
    intro acc
    show t.foldl _ (if b.id == i then some b else acc) = _
    rw [ih (if b.id == i then some b else acc)]
    conv_rhs =>
      rw [show (b :: t).foldl (fun acc f => if f.id == i then some f else acc) none =
        t.foldl (fun acc f => if f.id == i then some f else acc)
          (if b.id == i then some b else none) from rfl]
    rw [ih (if b.id == i then some b else none)]
    cases t.foldl (fun acc f => if f.id == i then some f else acc) none with
    | some f => rfl
    | none =>
      by_cases hb : (b.id == i) = true
      · rw [if_pos hb, if_pos hb]
      · rw [if_neg hb, if_neg hb]

theorem mapGet_cons (b : ForkRecord) (t : List ForkRecord) (i : Nat) :
    mapGet (b :: t) i =
      match mapGet t i with
      | some f => some f
      | none => if b.id == i then some b else none := by
  show t.foldl _ (if b.id == i then some b else none) = _
  exact foldl_mapGet_override i t (if b.id == i then some b else none)

theorem mapGet_some_spec {feed : List ForkRecord} {i : Nat} {f : ForkRecord}
    (h : mapGet feed i = some f) : f ∈ feed ∧ f.id = i := by
  induction feed with
  | nil => exact absurd h (by simp [mapGet])
  | cons b t ih =>
    rw [mapGet_cons] at h
    cases hm : mapGet t i with
    | some g =>
      rw [hm] at h
      dsimp only at h
      simp only [Option.some.injEq] at h
      subst h
      obtain ⟨h1, h2⟩ := ih hm
      exact ⟨List.mem_cons_of_mem _ h1, h2⟩
    | none =>
      rw [hm] at h
      dsimp only at h
      by_cases hb : (b.id == i) = true
      · rw [if_pos hb] at h
        simp only [Option.some.injEq] at h
        subst h
        exact ⟨List.mem_cons_self _ _, by simpa using hb⟩
      · rw [if_neg hb] at h
        exact absurd h (by simp)

theorem mapGet_eq_none_of {feed : List ForkRecord} {i : Nat}
    (h : ∀ f ∈ feed, f.id ≠ i) : mapGet feed i = none := by
  induction feed with
  | nil => rfl
  | cons b t ih =>
    rw [mapGet_cons]
    rw [ih fun f hf => h f (List.mem_cons_of_mem _ hf)]
    rw [if_neg (by simpa using h b (List.mem_cons_self _ _))]

theorem mapGet_of_mem_nodup {feed : List ForkRecord} {f : ForkRecord}
    (hnd : (feed.map ForkRecord.id).Nodup) (hf : f ∈ feed) :
    mapGet feed f.id = some f := by
  induction feed with
  | nil => cases hf
  | cons b t ih =>
    rw [List.map_cons, List.nodup_cons] at hnd
    rw [mapGet_cons]
    rcases List.mem_cons.mp hf with h | h
    · subst h
      have hnone : mapGet t f.id = none :=
        mapGet_eq_none_of fun g hg he =>
          hnd.1 (he ▸ List.mem_map_of_mem ForkRecord.id hg)
      rw [hnone]
      simp
    · rw [ih hnd.2 h]

theorem acceptableB_true_iff {feed : List ForkRecord} {r : Repo} :
    acceptableB feed r = true ↔
      ∃ e, mapGet feed r.id = some e ∧ isFallbackArticle e.summary = false := by
  unfold acceptableB
  cases hm : mapGet feed r.id with
  | none => simp
  | some e => simp

/-! ### The unreachable-remote batch -/

/-- The records produced by the generation loop when every endpoint call
fails: each selected repo gets its fallback summary. -/
def expectedNetErrRecords (det : Repo → Option DetailInfo) : List Repo → Nat → List ForkRecord
  | [], _ => []
  | r :: rest, i =>
    mkBatchRecord (applyDetails det r) r i (generateFallbackSummary r) ::
      expectedNetErrRecords det rest (i + 1)

theorem genArticleTok_netErr (resp : String → ApiResult)
    (hresp : ∀ m, resp m = ApiResult.netErr) (s : ModelState) :
    (genArticleTok resp s).article = none := by
  unfold genArticleTok genArticleFuel
  cases hg : getNextModel s with
  | none => rfl
  | some p =>
    obtain ⟨m, s'⟩ := p
    dsimp only
    rw [hresp m]
    rfl

theorem processBatchGo_netErr (det : Repo → Option DetailInfo)
    (resp : Repo → String → ApiResult) (hresp : ∀ r m, resp r m = ApiResult.netErr) :
    ∀ batch i acc, (processBatchGo true resp det i acc batch).1 =
      expectedNetErrRecords det batch i := by
  intro batch
  induction batch with
  | nil => intro i acc; rfl
  | cons r rest ih =>
    intro i acc
    unfold processBatchGo expectedNetErrRecords
    by_cases hhit : acc.rateLimitHit = true
    · have hstep : batchStep true resp det r acc = (none, acc, []) := by
        unfold batchStep
        rw [if_pos hhit]
      rw [hstep]
      dsimp only
      rw [ih (i + 1) acc]
      rfl
    · have hart : (generateBlogArticle true (resp r) (applyDetails det r) acc.state).article
          = none := by
        show (genArticleTok (resp r) acc.state).article = none
        exact genArticleTok_netErr _ (hresp r) acc.state
      have hstep : ∃ acc2, batchStep true resp det r acc =
          (none, acc2,
            (generateBlogArticle true (resp r) (applyDetails det r) acc.state).calls) := by
        unfold batchStep
        rw [if_neg hhit]
        dsimp only
        cases hga : (generateBlogArticle true (resp r) (applyDetails det r) acc.state).article with
        | some a => rw [hga] at hart; cases hart
        | none => exact ⟨_, rfl⟩
      obtain ⟨acc2, hstep⟩ := hstep
      rw [hstep]
      dsimp only
      rw [ih (i + 1) acc2]
      rfl

theorem expectedNetErrRecords_ids (det : Repo → Option DetailInfo) :
    ∀ batch i, (expectedNetErrRecords det batch i).map ForkRecord.id =
      batch.map Repo.id := by
  intro batch
  induction batch with
  | nil => intro i; rfl
  | cons r rest ih =>
    intro i
    show r.id :: _ = r.id :: _
    rw [ih (i + 1)]

theorem expectedNetErrRecords_mem (det : Repo → Option DetailInfo) :
    ∀ batch i f, f ∈ expectedNetErrRecords det batch i →
      ∃ rb ∈ batch, f.id = rb.id ∧ f.summary = generateFallbackSummary rb := by
  intro batch
  induction batch with
  | nil => intro i f hf; cases hf
  | cons r rest ih =>
    intro i f hf
    rcases List.mem_cons.mp hf with h | h
    · subst h
      exact ⟨r, List.mem_cons_self _ _, rfl, rfl⟩
    · obtain ⟨rb, h1, h2, h3⟩ := ih (i + 1) f h
      exact ⟨rb, List.mem_cons_of_mem _ h1, h2, h3⟩

theorem mem_expectedNetErrRecords (det : Repo → Option DetailInfo) :
    ∀ batch i r, r ∈ batch →
      ∃ f ∈ expectedNetErrRecords det batch i,
        f.id = r.id ∧ f.summary = generateFallbackSummary r := by
  intro batch
  induction batch with
  | nil => intro i r hr; cases hr
  | cons b rest ih =>
    intro i r hr
    rcases List.mem_cons.mp hr with h | h
    · subst h
      exact ⟨_, List.mem_cons_self _ _, rfl, rfl⟩
    · obtain ⟨f, h1, h2, h3⟩ := ih (i + 1) r h
      exact ⟨f, List.mem_cons_of_mem _ h1, h2, h3⟩

theorem preserved_ids (det : Repo → Option DetailInfo) (feed : List ForkRecord)
    (l : List Repo) :
    (((partitionRepos feed l).1.map fun p =>
        mergeRecord p.1 (applyDetails det p.1) p.2).map ForkRecord.id) =
      (l.filter fun r => acceptableB feed r).map Repo.id := by
  rw [← partitionRepos_fst_map, List.map_map, List.map_map]
  apply List.map_congr_left
  intro p hp
  obtain ⟨_, hm, _⟩ := partitionRepos_fst_mem p hp
  exact (mapGet_some_spec hm).2

theorem mem_preserved {det : Repo → Option DetailInfo} {feed : List ForkRecord}
    {l : List Repo} {f : ForkRecord}
    (hf : f ∈ (partitionRepos feed l).1.map fun p =>
      mergeRecord p.1 (applyDetails det p.1) p.2) :
    ∃ p ∈ (partitionRepos feed l).1,
      f = mergeRecord p.1 (applyDetails det p.1) p.2 ∧ f.id = p.1.id ∧
      f.summary = p.2.summary := by
  obtain ⟨p, hp, hfp⟩ := List.mem_map.mp hf
  obtain ⟨_, hm, _⟩ := partitionRepos_fst_mem p hp
  refine ⟨p, hp, hfp.symm, ?_, ?_⟩
  · rw [← hfp]
    exact (mapGet_some_spec hm).2
  · rw [← hfp]
    rfl

/-! ### Claim C1 -/

/-- Stability of the per-repo classification across an unreachable-remote
run: the document such a run writes classifies every selected repository
exactly as the input feed did — preserved articles stay acceptable,
batch-processed repositories got fallback articles (which fail the quality
check), and deferred repositories are absent from the document. -/
theorem acceptableB_next_feed {feed : List ForkRecord} {recent : List Repo} {K : Nat}
    (hnd : (recent.map Repo.id).Nodup) (r : Repo) (hr : r ∈ recent) :
    acceptableB
      (sortForks
        (((partitionRepos feed recent).1.map fun p =>
            mergeRecord p.1 (applyDetails detNone p.1) p.2) ++
          expectedNetErrRecords detNone (((partitionRepos feed recent).2).take K) 0))
      r = acceptableB feed r := by
  set F0 := ((partitionRepos feed recent).1.map fun p =>
      mergeRecord p.1 (applyDetails detNone p.1) p.2) ++
    expectedNetErrRecords detNone (((partitionRepos feed recent).2).take K) 0 with hF0def
  have hPids := preserved_ids detNone feed recent
  have hBids := expectedNetErrRecords_ids detNone
    (((partitionRepos feed recent).2).take K) 0
  have hsnd := partitionRepos_snd feed recent
  have hperm2 := List.filter_append_perm (fun x => acceptableB feed x) recent
  have hndAB : (((recent.filter fun x => acceptableB feed x) ++
      (recent.filter fun x => !acceptableB feed x)).map Repo.id).Nodup :=
    ((hperm2.map Repo.id).nodup_iff).mpr hnd
  rw [List.map_append] at hndAB
  obtain ⟨ndA, ndB, disj⟩ := List.nodup_append.mp hndAB
  have hsubB : ((((partitionRepos feed recent).2).take K).map Repo.id).Sublist
      ((recent.filter fun x => !acceptableB feed x).map Repo.id) := by
    rw [hsnd]
    exact (List.take_sublist _ _).map _
  have ndB' := ndB.sublist hsubB
  have disj' : ((recent.filter fun x => acceptableB feed x).map Repo.id).Disjoint
      ((((partitionRepos feed recent).2).take K).map Repo.id) :=
    fun a ha hb => disj ha (hsubB.subset hb)
  have hndF0 : (F0.map ForkRecord.id).Nodup := by
    rw [hF0def, List.map_append, hPids, hBids]
    exact List.nodup_append.mpr ⟨ndA, ndB', disj'⟩
  have hpermF := List.perm_insertionSort updGe F0
  have hndF : ((sortForks F0).map ForkRecord.id).Nodup :=
    ((hpermF.map ForkRecord.id).nodup_iff).mpr hndF0
  by_cases hacc : acceptableB feed r = true
  · obtain ⟨e, hm, hfb⟩ := acceptableB_true_iff.mp hacc
    have hpart := mem_partitionRepos_fst hr hm hfb
    have hrec : mergeRecord r (applyDetails detNone r) e ∈
        (partitionRepos feed recent).1.map fun p =>
          mergeRecord p.1 (applyDetails detNone p.1) p.2 :=
      List.mem_map_of_mem _ hpart
    have hmemF : mergeRecord r (applyDetails detNone r) e ∈ sortForks F0 :=
      hpermF.mem_iff.mpr (by rw [hF0def]; exact List.mem_append_left _ hrec)
    have hid : (mergeRecord r (applyDetails detNone r) e).id = r.id :=
      (mapGet_some_spec hm).2
    have hget : mapGet (sortForks F0) r.id =
        some (mergeRecord r (applyDetails detNone r) e) := by
      rw [← hid]
      exact mapGet_of_mem_nodup hndF hmemF
    rw [acceptableB_of_mapGet_some hget]
    show (!isFallbackArticle e.summary) = _
    rw [hfb, hacc]
    rfl
  · rw [Bool.not_eq_true] at hacc
    rw [hacc]
    by_cases hex : ∃ f ∈ sortForks F0, f.id = r.id
    · obtain ⟨f, hfF, hfid⟩ := hex
      have hget : mapGet (sortForks F0) r.id = some f := by
        rw [← hfid]
        exact mapGet_of_mem_nodup hndF hfF
      rw [acceptableB_of_mapGet_some hget]
      have hfF0 : f ∈ F0 := hpermF.mem_iff.mp hfF
      rw [hF0def] at hfF0
      rcases List.mem_append.mp hfF0 with hfP | hfB
      · obtain ⟨p, hp, _, hpid, _⟩ := mem_preserved hfP
        obtain ⟨hp1mem, hpm, hpfb⟩ := partitionRepos_fst_mem p hp
        have hpr : p.1 = r :=
          List.inj_on_of_nodup_map hnd hp1mem hr (by rw [← hpid, hfid])
        have hcontra : acceptableB feed r = true := by
          rw [← hpr, acceptableB_of_mapGet_some hpm, hpfb]
          rfl
        rw [hcontra] at hacc
        cases hacc
      · obtain ⟨rb, hrbmem, hfid2, hfsum⟩ :=
          expectedNetErrRecords_mem detNone _ 0 f hfB
        have hrbrec : rb ∈ recent := by
          have h1 : rb ∈ (partitionRepos feed recent).2 :=
            List.take_subset _ _ hrbmem
          rw [hsnd] at h1
          exact List.filter_subset' recent h1
        have hrbr : rb = r :=
          List.inj_on_of_nodup_map hnd hrbrec hr (by rw [← hfid2, hfid])
        rw [hrbr] at hfsum
        rw [hfsum, isFallback_fallback r]
        rfl
    · push_neg at hex
      have hnone : mapGet (sortForks F0) r.id = none :=
        mapGet_eq_none_of fun f hf => hex f hf
      rw [acceptableB_of_mapGet_none hnone]

/-- C1 (amended): under unreachable-remote conditions with
`K = batchSize < N_needing`, one run processes exactly `K` repositories
and reports `pending = N_needing - K`; but a second such run finds the
very same regeneration queue again — the `K` fallback-filled records fail
the quality check and the deferred repositories were dropped from the
document — so it again processes `K` of them and again reports
`pending = N_needing - K`, which is nonzero: pending never reaches `0`
while the remote stays unreachable. -/
theorem c1_two_runs_pending (cfg : Config) (feed : List ForkRecord) (repos : List Repo)
    (hnd : ((repos.take cfg.reposToShow).map Repo.id).Nodup)
    (hK : cfg.batchSize < (partitionRepos feed (repos.take cfg.reposToShow)).2.length) :
    (selectBatch cfg feed repos).length = cfg.batchSize ∧
      (runMain cfg true respNone detNone feed repos).1.progress.pending =
        (partitionRepos feed (repos.take cfg.reposToShow)).2.length - cfg.batchSize ∧
      (partitionRepos (runMain cfg true respNone detNone feed repos).1.forks
          (repos.take cfg.reposToShow)).2 =
        (partitionRepos feed (repos.take cfg.reposToShow)).2 ∧
      (runMain cfg true respNone detNone
          (runMain cfg true respNone detNone feed repos).1.forks repos).1.progress.pending =
        (partitionRepos feed (repos.take cfg.reposToShow)).2.length - cfg.batchSize ∧
      (runMain cfg true respNone detNone
          (runMain cfg true respNone detNone feed repos).1.forks repos).1.progress.pending
        ≠ 0 := by
  have hlen : ((((partitionRepos feed (repos.take cfg.reposToShow)).2).take
      cfg.batchSize).length) = cfg.batchSize := by
    rw [List.length_take]
    exact Nat.min_eq_left (Nat.le_of_lt hK)
  have hb : (processBatch true respNone detNone
      (((partitionRepos feed (repos.take cfg.reposToShow)).2).take cfg.batchSize)).1 =
      expectedNetErrRecords detNone
        (((partitionRepos feed (repos.take cfg.reposToShow)).2).take cfg.batchSize) 0 :=
    processBatchGo_netErr detNone respNone (fun _ _ => rfl) _ 0 initBatchAcc
  have hforks : (runMain cfg true respNone detNone feed repos).1.forks =
      sortForks
        (((partitionRepos feed (repos.take cfg.reposToShow)).1.map fun p =>
            mergeRecord p.1 (applyDetails detNone p.1) p.2) ++
          expectedNetErrRecords detNone
            (((partitionRepos feed (repos.take cfg.reposToShow)).2).take cfg.batchSize) 0) := by
    show sortForks _ = _
    rw [hb]
  have hstable : ∀ r ∈ repos.take cfg.reposToShow,
      acceptableB (runMain cfg true respNone detNone feed repos).1.forks r =
        acceptableB feed r := by
    intro r hr
    rw [hforks]
    exact acceptableB_next_feed hnd r hr
  have hsame : (partitionRepos (runMain cfg true respNone detNone feed repos).1.forks
      (repos.take cfg.reposToShow)).2 =
      (partitionRepos feed (repos.take cfg.reposToShow)).2 := by
    rw [partitionRepos_snd, partitionRepos_snd]
    exact List.filter_congr fun r hr => by rw [hstable r hr]
  have hpend1 : (runMain cfg true respNone detNone feed repos).1.progress.pending =
      (partitionRepos feed (repos.take cfg.reposToShow)).2.length -
        ((((partitionRepos feed (repos.take cfg.reposToShow)).2).take
          cfg.batchSize).length) := rfl
  have hpend2 : (runMain cfg true respNone detNone
      (runMain cfg true respNone detNone feed repos).1.forks repos).1.progress.pending =
      (partitionRepos (runMain cfg true respNone detNone feed repos).1.forks
          (repos.take cfg.reposToShow)).2.length -
        (((partitionRepos (runMain cfg true respNone detNone feed repos).1.forks
            (repos.take cfg.reposToShow)).2).take cfg.batchSize).length := rfl
  refine ⟨?_, ?_, hsame, ?_, ?_⟩
  · show ((((partitionRepos feed (repos.take cfg.reposToShow)).2).take
      cfg.batchSize).length) = cfg.batchSize
    exact hlen
  · rw [hpend1, hlen]
  · rw [hpend2, hsame, hlen]
  · rw [hpend2, hsame, hlen]
    omega

def cfgOne : Config := { reposToShow := 999, batchSize := 1 }

def repoA : Repo :=
  { id := 1, name := emptyString, description := none, language := none, stargazers := 0,
    forksCount := 0, topics := none, parent := none, htmlUrl := emptyString,
    createdAt := 0, updatedAt := 2, fork := true, archived := false, rtype := typeForkText }

def repoB : Repo :=
  { id := 2, name := emptyString, description := none, language := none, stargazers := 0,
    forksCount := 0, topics := none, parent := none, htmlUrl := emptyString,
    createdAt := 0, updatedAt := 1, fork := true, archived := false, rtype := typeForkText }

/-- C1 counterexample: with two repositories needing regeneration and a
batch cap of one, the first unreachable-remote run reports `pending = 1`
as the claim says — but the second run, fed the first run's document, also
reports `pending = 1`, not `0`: the fallback-filled repository is
re-queued and the deferred one was never written. -/
theorem c1_counterexample :
    (runMain cfgOne true respNone detNone [] [repoA, repoB]).1.progress.pending = 1 ∧
      (runMain cfgOne true respNone detNone
          ((runMain cfgOne true respNone detNone [] [repoA, repoB]).1.forks)
          [repoA, repoB]).1.progress.pending = 1 := by
  decide

/-- Witness for `c1_two_runs_pending` at the concrete two-repository,
cap-one instance. -/
theorem c1_two_runs_pending_witness :
    (selectBatch cfgOne [] [repoA, repoB]).length = cfgOne.batchSize ∧
      (runMain cfgOne true respNone detNone [] [repoA, repoB]).1.progress.pending =
        (partitionRepos [] ([repoA, repoB].take cfgOne.reposToShow)).2.length -
          cfgOne.batchSize ∧
      (partitionRepos (runMain cfgOne true respNone detNone [] [repoA, repoB]).1.forks
          ([repoA, repoB].take cfgOne.reposToShow)).2 =
        (partitionRepos [] ([repoA, repoB].take cfgOne.reposToShow)).2 ∧
      (runMain cfgOne true respNone detNone
          (runMain cfgOne true respNone detNone [] [repoA, repoB]).1.forks
          [repoA, repoB]).1.progress.pending =
        (partitionRepos [] ([repoA, repoB].take cfgOne.reposToShow)).2.length -
          cfgOne.batchSize ∧
      (runMain cfgOne true respNone detNone
          (runMain cfgOne true respNone detNone [] [repoA, repoB]).1.forks
          [repoA, repoB]).1.progress.pending ≠ 0 :=
  c1_two_runs_pending cfgOne [] [repoA, repoB] (by decide) (by decide)

end Forks
